import Mathlib

/-!
Verification of the core puzzle-generation engine of the
`contextual_word_puzzle` repository (`generate_spelling_bee_puzzle.py`)
against its natural-language specification.

Words and other Python strings are modelled as `List Char`; Python float
frequencies as `ℚ` (only compared, never computed with, so any linear
order is faithful); Python's stable `sorted` as Mathlib's stable
`List.insertionSort`; the two distinct failure exits of
`evaluate_candidate` as an explicit error type.  The letter-mask index
and subset query live outside the provided sources, so they are modelled
from the specification text (§4.1–§4.2), as marked on each definition.
-/

namespace SpellingBee

/-- A Python string: list of characters. -/
abbrev Word := List Char

/-- The `distinct_letters` field of a candidate may be a JSON list of
strings, a single string, or anything else (`parse_distinct_letters`
takes `Any`). -/
inductive DistinctLetters where
  | listVal (l : List Word) : DistinctLetters
  | strVal (s : Word) : DistinctLetters
  | otherVal : DistinctLetters
deriving DecidableEq, Repr

/-- A candidate seed word: `{word, clue, distinct_letters}`. -/
structure Candidate where
  word : Word
  clue : Word
  distinct_letters : DistinctLetters
deriving DecidableEq, Repr

/-- A final puzzle word entry `{word, frequency, definition}`. -/
structure Entry where
  word : Word
  frequency : ℚ
  defn : Word
deriving DecidableEq, Repr

/-- The terminal puzzle record produced by `generate_puzzle_json`. -/
structure Puzzle where
  seed_word : Word
  seed_word_clue : Word
  distinct_letters : List Word
  center_letter : Word
  total_words : ℕ
  words : List Entry
deriving DecidableEq, Repr

/-- The two distinguishable failure exits of `evaluate_candidate`:
the early return on a bad letter count (line 94–97) and the fall-through
return after all centers are exhausted (line 125). -/
inductive EvalError where
  | invalidLetterCount : EvalError
  | thresholdUnsatisfied : EvalError
deriving DecidableEq, Repr

deriving instance DecidableEq for Except

/-- Python `str.strip()`: remove leading and trailing whitespace. -/
def strip (w : Word) : Word :=
  ((w.dropWhile Char.isWhitespace).reverse.dropWhile Char.isWhitespace).reverse

/-- Python `str.lower()` on a string (ASCII case mapping). -/
def lowerStr (w : Word) : Word := w.map Char.toLower

/-- `parse_distinct_letters` (source lines 69–77): a list input is
normalized element-wise by `lower`/`strip`; a string input is reduced to
its ASCII-alphabetic characters, lowercased; anything else yields `[]`;
finally empty strings are filtered out. -/
def parse_distinct_letters : DistinctLetters → List Word
  | .listVal l => (l.map fun s => strip (lowerStr s)).filter (· ≠ [])
  | .strVal s => ((s.filter Char.isAlpha).map fun c => [c.toLower]).filter (· ≠ [])
  | .otherVal => ([] : List Word).filter (· ≠ [])

/-- Python `sorted(set(xs))`: the ascending list of the distinct
elements, modelled as sorting the deduplicated list. -/
def sortedDedup (l : List Word) : List Word :=
  List.insertionSort (· ≤ ·) l.dedup

/-- The distinct-letter list `unique_letters` computed by
`evaluate_candidate` (source line 92). -/
def uniqueLetters (c : Candidate) : List Word :=
  sortedDedup (parse_distinct_letters c.distinct_letters)

/-- The seed string `''.join(unique_letters)` (source line 99). -/
def seedOf (c : Candidate) : Word := (uniqueLetters c).flatten

/-- A query oracle standing for `all_words_for_seed(seed, center,
mask_index, min_len)`: the engine only observes the word list it
returns for a seed and a center. -/
abbrev Query := Word → Word → List Word

/-- The center-letter loop of `evaluate_candidate` (source lines
104–125): try centers in order, return the first whose word list
reaches the threshold together with that list. -/
def tryCenters (q : Query) (seed : Word) (minW : ℕ) : List Word → Option (Word × List Word)
  | [] => none
  | c :: rest =>
    let ws := q seed c
    if minW ≤ ws.length then some (c, ws) else tryCenters q seed minW rest

/-- `evaluate_candidate` (source lines 80–125).  The `shuffle` argument
stands for `random.shuffle` applied to the center list; the candidate
word itself is only printed.  Returns the candidate, chosen center and
word list, or one of the two failure signals. -/
def evaluate_candidate (shuffle : List Word → List Word) (q : Query)
    (c : Candidate) (minW : ℕ) : Except EvalError (Candidate × Word × List Word) :=
  let unique := uniqueLetters c
  if unique.length = 7 then
    match tryCenters q (seedOf c) minW (shuffle unique) with
    | some (ctr, ws) => .ok (c, ctr, ws)
    | none => .error .thresholdUnsatisfied
  else
    .error .invalidLetterCount

/-- The candidate loop of `pick_candidate_and_center` (source lines
142–147): evaluate candidates in order, return the first success. -/
def pickLoop (shuffleC : List Word → List Word) (q : Query) (minW : ℕ) :
    List Candidate → Option (Candidate × Word × List Word)
  | [] => none
  | c :: rest =>
    match evaluate_candidate shuffleC q c minW with
    | .ok r => some r
    | .error _ => pickLoop shuffleC q minW rest

/-- `pick_candidate_and_center` (source lines 128–147): shuffle the
candidate pool, then evaluate until one succeeds; `none` models the
fatal `NoCandidateSatisfiesThreshold` outcome. -/
def pick_candidate_and_center (shuffleCands : List Candidate → List Candidate)
    (shuffleC : List Word → List Word) (q : Query)
    (cands : List Candidate) (minW : ℕ) : Option (Candidate × Word × List Word) :=
  pickLoop shuffleC q minW (shuffleCands cands)

/-- One iteration of the suffix loop of `is_simple_affix_variant`
(source lines 294–304): `candidate.endswith(suffix)` and either
`stripped == base` or (for "ing"/"er" only, flagged by `doubled`)
`stripped == base + base[-1]`. -/
def suffixCheck (b cd suf : Word) (doubled : Bool) : Bool :=
  decide (suf <:+ cd) &&
    (decide (cd.take (cd.length - suf.length) = b) ||
      (doubled && decide (1 ≤ b.length) &&
        decide (cd.take (cd.length - suf.length) = b ++ b.drop (b.length - 1))))

/-- `is_simple_affix_variant` (source lines 280–306). -/
def is_simple_affix_variant (base cand : Word) : Bool :=
  let b := lowerStr base
  let cd := lowerStr cand
  if b = [] ∨ cd = [] then false
  else
    -- prefix check: candidate.startswith("re") and candidate[2:] == base
    (decide (['r', 'e'] <+: cd) && decide (cd.drop 2 = b)) ||
    -- suffix checks, in source order: "ing", "er", "ness", "s"
    suffixCheck b cd ['i', 'n', 'g'] true ||
    suffixCheck b cd ['e', 'r'] true ||
    suffixCheck b cd ['n', 'e', 's', 's'] false ||
    suffixCheck b cd ['s'] false

/-- The sort key of `drop_superset_words` (source line 236):
`(len(entry["word"]), entry["word"])`, compared ascending. -/
def keyLe (e₁ e₂ : Entry) : Prop :=
  e₁.word.length < e₂.word.length ∨
    (e₁.word.length = e₂.word.length ∧ e₁.word ≤ e₂.word)

instance : DecidableRel keyLe := fun _ _ => by unfold keyLe; infer_instance

/-- `sorted(word_entries, key=lambda e: (len(e["word"]), e["word"]))`
(source lines 235–237), modelled by the stable insertion sort. -/
def sortedByLen (l : List Entry) : List Entry := List.insertionSort keyLe l

/-- The generator condition of the `next(...)` search (source lines
244–250): kept word is a strict substring of the current word with
frequency at or above the threshold. -/
def qualB (t : ℚ) (e k : Entry) : Bool :=
  decide (k.word <:+: e.word) && decide (k.word ≠ e.word) && decide (t ≤ k.frequency)

/-- One iteration of the kept-set walk (source lines 241–262): find the
first qualifying kept entry; on an affix match or a low own frequency
the current entry is dropped, otherwise appended to the kept list. -/
def dropStep (t : ℚ) (kept : List Entry) (e : Entry) : List Entry :=
  match kept.find? (qualB t e) with
  | none => kept ++ [e]
  | some k =>
    if is_simple_affix_variant k.word e.word then kept
    else if e.frequency ≤ t then kept
    else kept ++ [e]

/-- The kept-entry list accumulated by the walk of `drop_superset_words`
over the length-sorted entries. -/
def keptEntries (t : ℚ) (l : List Entry) : List Entry :=
  (sortedByLen l).foldl (dropStep t) []

/-- The kept word set (source line 276). -/
def keptWords (t : ℚ) (l : List Entry) : List Word :=
  (keptEntries t l).map (·.word)

/-- `drop_superset_words` (source lines 223–277): the input restricted,
in the original order, to entries whose word was kept by the walk. -/
def drop_superset_words (l : List Entry) (t : ℚ) : List Entry :=
  if l = [] then l
  else l.filter fun e => decide (e.word ∈ keptWords t l)

/-- `SUBSET_FREQ_THRESHOLD = 7e-6` (source line 40). -/
def SUBSET_FREQ_THRESHOLD : ℚ := 7 / 1000000

/-- `get_word_definition` (source lines 150–162): exact lowercase key
match, then case-insensitive scan, then a sentinel. -/
def get_word_definition (w : Word) (dict : List (Word × Word)) : Word :=
  let wl := lowerStr w
  match dict.find? (fun kv => decide (kv.1 = wl)) with
  | some kv => kv.2
  | none =>
    match dict.find? (fun kv => decide (lowerStr kv.1 = wl)) with
    | some kv => kv.2
    | none => "No definition available".toList

/-- The assembly sort key (source line 194): ascending on
`(-frequency, word)`, i.e. frequency descending with word-ascending
ties. -/
def pairLe (p₁ p₂ : Word × ℚ) : Prop :=
  p₂.2 < p₁.2 ∨ (p₁.2 = p₂.2 ∧ p₁.1 ≤ p₂.1)

instance : DecidableRel pairLe := fun _ _ => by unfold pairLe; infer_instance

/-- The same order on finished entries: frequency descending, word
ascending on ties. -/
def entryOrder (e₁ e₂ : Entry) : Prop :=
  e₂.frequency < e₁.frequency ∨ (e₁.frequency = e₂.frequency ∧ e₁.word ≤ e₂.word)

/-- `generate_puzzle_json` (source lines 165–220): attach frequencies,
sort by `(-frequency, word)`, attach definitions, apply the dedup
filter, and emit the puzzle record.  `freqOf` stands for the external
`word_frequency` oracle. -/
def generate_puzzle_json (c : Candidate) (center : Word) (valid_words : List Word)
    (freqOf : Word → ℚ) (dict : List (Word × Word)) : Puzzle :=
  let pairs := valid_words.map fun w => (w, freqOf w)
  let sortedPairs := List.insertionSort pairLe pairs
  let word_entries := sortedPairs.map fun p => Entry.mk p.1 p.2 (get_word_definition p.1 dict)
  let finalEntries := drop_superset_words word_entries SUBSET_FREQ_THRESHOLD
  { seed_word := c.word
    seed_word_clue := c.clue
    distinct_letters := parse_distinct_letters c.distinct_letters
    center_letter := center
    total_words := finalEntries.length
    words := finalEntries }

/-- Modelled from the spec: the repository's `index_mask_dictionary.py`
(letter-mask indexer, §4.1) is not among the provided sources.  §3: the
mask of a word is the 26-bit value with bit *i* set iff letter *i*
occurs in the word. -/
def maskOf (w : Word) : ℕ :=
  w.foldl (fun m c => m ||| (1 <<< (c.toNat - 'a'.toNat))) 0

/-- Modelled from the spec: `build_index(words, min_len)` (§4.1) —
every word of length ≥ `min_len` is appended, in dictionary order, to
the bucket of its exact mask; a bucket is therefore the in-order
restriction of the dictionary to that mask. -/
def buildIndex (words : List Word) (minLen : ℕ) : ℕ → List Word :=
  fun m => words.filter fun w => decide (minLen ≤ w.length) && decide (maskOf w = m)

/-- Modelled from the spec: the standard submask-iteration trick (§4.2):
`sub = (sub-1) & puzzleMask`, starting at `puzzleMask`, terminating when
`sub == 0`. -/
def submaskList (m : ℕ) (sub : ℕ) : List ℕ :=
  if h : sub = 0 then []
  else sub :: submaskList m ((sub - 1) &&& m)
termination_by sub
decreasing_by
  exact Nat.lt_of_le_of_lt Nat.and_le_left (Nat.sub_lt (Nat.pos_of_ne_zero h) one_pos)

/-- Modelled from the spec: `query(puzzleMask, centerBit)` (§4.2) —
enumerate the submasks of the puzzle mask, discard those not containing
the center letter's bit (index `centerIdx`), and append the index bucket
of each remaining submask. -/
def query (index : ℕ → List Word) (puzzleMask : ℕ) (centerIdx : ℕ) : List Word :=
  (((submaskList puzzleMask puzzleMask).filter fun s => s.testBit centerIdx).flatMap index)

/-- The claim's dedup rule, as its sentence reads: the current entry is
dropped when some qualifying kept entry exists and either the current
word is a simple affix variant of such a (some such) qualifying kept
entry, or its own frequency is at most the threshold. -/
def specDropEx (t : ℚ) (kept : List Entry) (e : Entry) : Bool :=
  kept.any (qualB t e) &&
    (kept.any (fun k => qualB t e k && is_simple_affix_variant k.word e.word) ||
      decide (e.frequency ≤ t))

/-- The kept-entry walk driven by the claim's existential drop rule. -/
def specKeptEx (t : ℚ) (l : List Entry) : List Entry :=
  (sortedByLen l).foldl
    (fun kept e => if specDropEx t kept e then kept else kept ++ [e]) []

/-- The amended dedup rule: the affix and frequency tests are applied
against the first qualifying entry in kept order (the head of the kept
list restricted to qualifying entries), not against all of them. -/
def specDropFirst (t : ℚ) (kept : List Entry) (e : Entry) : Bool :=
  match (kept.filter (qualB t e)).head? with
  | none => false
  | some k => is_simple_affix_variant k.word e.word || decide (e.frequency ≤ t)

/-- The kept-entry walk driven by the amended first-match drop rule. -/
def specKeptFirst (t : ℚ) (l : List Entry) : List Entry :=
  (sortedByLen l).foldl
    (fun kept e => if specDropFirst t kept e then kept else kept ++ [e]) []

/-- The claim's precondition, as its sentence reads: the candidate's
supplied letters reduce to exactly 7 distinct alphabetic letters. -/
def claimSevenAlphabetic (c : Candidate) : Bool :=
  decide (((uniqueLetters c).filter fun s =>
    decide (s.length = 1) && s.all Char.isAlpha).length = 7)

/-- Concrete dedup example: the word "est" with frequency 2. -/
def entryEst : Entry := ⟨['e', 's', 't'], 2, []⟩

/-- Concrete dedup example: the word "rest" with frequency 2. -/
def entryRest : Entry := ⟨['r', 'e', 's', 't'], 2, []⟩

/-- Concrete dedup example: the word "resting" with frequency 2. -/
def entryResting : Entry := ⟨['r', 'e', 's', 't', 'i', 'n', 'g'], 2, []⟩

/-- Concrete dedup example list: "est", "rest", "resting". -/
def exListC1 : List Entry := [entryEst, entryRest, entryResting]

/-- Concrete candidate whose supplied letter list holds the seven
non-alphabetic strings "1".."7". -/
def candDigits : Candidate :=
  ⟨['x'], [],
    .listVal [['1'], ['2'], ['3'], ['4'], ['5'], ['6'], ['7']]⟩

/-- Concrete candidate with the seven letters a–g. -/
def candSeven : Candidate :=
  ⟨['a', 'b', 'c', 'd', 'e', 'f', 'g'], [],
    .listVal [['a'], ['b'], ['c'], ['d'], ['e'], ['f'], ['g']]⟩

/-- Concrete candidate with only three distinct letters. -/
def candThree : Candidate :=
  ⟨['c', 'a', 't'], [], .listVal [['c'], ['a'], ['t']]⟩

/-- The identity stand-in for `random.shuffle` on center lists. -/
def idShuffle : List Word → List Word := fun l => l

/-- A reversing stand-in for `random.shuffle` on center lists. -/
def revShuffle : List Word → List Word := fun l => l.reverse

/-- The identity stand-in for `random.shuffle` on candidate pools. -/
def idCandShuffle : List Candidate → List Candidate := fun l => l

/-- A reversing stand-in for `random.shuffle` on candidate pools. -/
def revCandShuffle : List Candidate → List Candidate := fun l => l.reverse

/-- A query oracle returning one fixed word for every seed and center. -/
def constQuery : Query := fun _ _ => [['s', 'o', 'm', 'e']]

/-- A query oracle returning two words for center "b" and none
otherwise. -/
def centerBQuery : Query := fun _ ctr =>
  if ctr = ['b'] then [['b', 'a', 'd'], ['c', 'a', 'b']] else []

/-- Concrete candidate pool for the search-consistency example. -/
def examplePool : List Candidate := [candThree, candSeven]

/-- Concrete small dictionary for the query example. -/
def exDict : List Word := [['a', 'b'], ['b', 'c'], ['c', 'd'], ['a', 'b', 'c']]

instance : IsTrans Entry keyLe := by
  constructor
  intro a b c hab hbc
  rcases hab with h1 | ⟨h1, h2⟩ <;> rcases hbc with h3 | ⟨h3, h4⟩
  · exact Or.inl (h1.trans h3)
  · exact Or.inl (lt_of_lt_of_eq h1 h3)
  · exact Or.inl (lt_of_eq_of_lt h1 h3)
  · exact Or.inr ⟨h1.trans h3, h2.trans h4⟩

instance : IsTotal Entry keyLe := by
  constructor
  intro a b
  rcases lt_trichotomy a.word.length b.word.length with h | h | h
  · exact Or.inl (Or.inl h)
  · rcases le_total a.word b.word with h2 | h2
    · exact Or.inl (Or.inr ⟨h, h2⟩)
    · exact Or.inr (Or.inr ⟨h.symm, h2⟩)
  · exact Or.inr (Or.inl h)

instance : IsTrans (Word × ℚ) pairLe := by
  constructor
  intro a b c hab hbc
  rcases hab with h1 | ⟨h1, h2⟩ <;> rcases hbc with h3 | ⟨h3, h4⟩
  · exact Or.inl (h3.trans h1)
  · exact Or.inl (lt_of_eq_of_lt h3.symm h1)
  · exact Or.inl (lt_of_lt_of_eq h3 h1.symm)
  · exact Or.inr ⟨h1.trans h3, h2.trans h4⟩

instance : IsTotal (Word × ℚ) pairLe := by
  constructor
  intro a b
  rcases lt_trichotomy a.2 b.2 with h | h | h
  · exact Or.inr (Or.inl h)
  · rcases le_total a.1 b.1 with h2 | h2
    · exact Or.inl (Or.inr ⟨h, h2⟩)
    · exact Or.inr (Or.inr ⟨h.symm, h2⟩)
  · exact Or.inl (Or.inl h)

/-! ## Basic shape of the dedup filter output -/

/-- `drop_superset_words` is literally the input filtered to the kept
word set (the empty-input early return coincides with the general
formula). -/
theorem drop_superset_words_eq_filter (l : List Entry) (t : ℚ) :
    drop_superset_words l t =
      l.filter fun e => decide (e.word ∈ keptWords t l) := by
  unfold drop_superset_words
  by_cases h : l = []
  · simp [h]
  · simp [h]

/-- C8: the dedup filter's output is exactly the input list restricted
to the kept words, in the original input order — a subsequence of the
input; it never adds, duplicates, or reorders entries. -/
theorem dedup_output_is_input_restriction (l : List Entry) (t : ℚ) :
    drop_superset_words l t =
      (l.filter fun e => decide (e.word ∈ keptWords t l)) ∧
      (drop_superset_words l t).Sublist l := by
  refine ⟨drop_superset_words_eq_filter l t, ?_⟩
  rw [drop_superset_words_eq_filter l t]
  exact List.filter_sublist l

/-- C10: in every assembled puzzle record, the `total_words` field is
the length of the `words` list, both computed after the dedup filter. -/
theorem puzzle_total_words_eq_length (c : Candidate) (center : Word)
    (valid_words : List Word) (freqOf : Word → ℚ) (dict : List (Word × Word)) :
    (generate_puzzle_json c center valid_words freqOf dict).total_words =
      (generate_puzzle_json c center valid_words freqOf dict).words.length := rfl

/-- C3: the words list of every assembled puzzle is ordered by frequency
descending with ties broken by word ascending, and this still holds
after the dedup filter; the assembler is a pure function, so the order
is deterministic for identical input. -/
theorem puzzle_words_sorted (c : Candidate) (center : Word)
    (valid_words : List Word) (freqOf : Word → ℚ) (dict : List (Word × Word)) :
    (generate_puzzle_json c center valid_words freqOf dict).words.Pairwise entryOrder := by
  have hpairs : List.Sorted pairLe
      (List.insertionSort pairLe (valid_words.map fun w => (w, freqOf w))) :=
    List.sorted_insertionSort pairLe _
  have hmap : (((List.insertionSort pairLe (valid_words.map fun w => (w, freqOf w))).map
      fun p => Entry.mk p.1 p.2 (get_word_definition p.1 dict))).Pairwise entryOrder := by
    refine List.Pairwise.map _ ?_ hpairs
    intro a b hab
    exact hab
  show ((drop_superset_words _ _)).Pairwise entryOrder
  rw [drop_superset_words_eq_filter]
  exact List.Pairwise.sublist (List.filter_sublist _) hmap

/-! ## The affix-variant predicate (C5) -/

/-- Ends-with plus strip-equals is the same as being the concatenation:
`cd` ends with `suf` and `cd[:-len(suf)] == x` iff `cd = x ++ suf`. -/
theorem suffix_take_iff (x suf cd : Word) :
    (suf <:+ cd ∧ cd.take (cd.length - suf.length) = x) ↔ cd = x ++ suf := by
  constructor
  · rintro ⟨⟨pre, hpre⟩, htake⟩
    subst hpre
    rw [List.length_append, Nat.add_sub_cancel, List.take_left] at htake
    rw [htake]
  · rintro rfl
    refine ⟨List.suffix_append x suf, ?_⟩
    rw [List.length_append, Nat.add_sub_cancel, List.take_left]

/-- The Boolean suffix test of the source matches the concatenation
shapes of the claim. -/
theorem suffixCheck_iff (b cd suf : Word) (dbl : Bool) :
    suffixCheck b cd suf dbl = true ↔
      (cd = b ++ suf ∨
        (dbl = true ∧ 1 ≤ b.length ∧
          cd = (b ++ b.drop (b.length - 1)) ++ suf)) := by
  unfold suffixCheck
  simp only [Bool.and_eq_true, Bool.or_eq_true, decide_eq_true_eq]
  rw [and_or_left]
  constructor
  · rintro (⟨h1, h2⟩ | ⟨h1, ⟨hd, hlen⟩, h2⟩)
    · exact Or.inl ((suffix_take_iff b suf cd).mp ⟨h1, h2⟩)
    · exact Or.inr ⟨hd, hlen, (suffix_take_iff _ suf cd).mp ⟨h1, h2⟩⟩
  · rintro (h | ⟨hd, hlen, h⟩)
    · exact Or.inl ⟨((suffix_take_iff b suf cd).mpr h).1, ((suffix_take_iff b suf cd).mpr h).2⟩
    · exact Or.inr ⟨((suffix_take_iff _ suf cd).mpr h).1, ⟨hd, hlen⟩, ((suffix_take_iff _ suf cd).mpr h).2⟩

/-- The last character of a non-empty list, as the singleton drop of all
preceding characters. -/
theorem drop_length_sub_one_eq_getLast (b : Word) (hb : b ≠ []) :
    b.drop (b.length - 1) = [b.getLast hb] := by
  rcases List.eq_nil_or_concat b with h | ⟨l, a, h⟩
  · exact absurd h hb
  · subst h
    simp [List.concat_eq_append]

/-- The prefix test of the source matches the concatenation shape:
`cd` starts with "re" and `cd[2:] == b` iff `cd = "re" ++ b`. -/
theorem prefix_drop_iff (b cd : Word) :
    (['r', 'e'] <+: cd ∧ cd.drop 2 = b) ↔ cd = ['r', 'e'] ++ b := by
  constructor
  · rintro ⟨⟨post, hpost⟩, hdrop⟩
    subst hpost
    simp only [List.drop_left' (by rfl : (['r', 'e'] : Word).length = 2)] at hdrop
    rw [hdrop]
  · rintro rfl
    exact ⟨⟨b, rfl⟩, List.drop_left' (by rfl : (['r', 'e'] : Word).length = 2)⟩

/-- C5: on non-empty lowercase strings, `is_simple_affix_variant base
cand` holds iff `cand` is `"re" + base`, or `base` followed by one of
the suffixes "ing", "er", "ness", "s", or (for "ing"/"er" only) `base`
with its final character doubled followed by the suffix; no other pair
matches. -/
theorem is_simple_affix_variant_iff (base cand : Word) (hb : base ≠ []) (hc : cand ≠ [])
    (hlb : lowerStr base = base) (hlc : lowerStr cand = cand) :
    is_simple_affix_variant base cand = true ↔
      (cand = ['r', 'e'] ++ base ∨
        cand = base ++ ['i', 'n', 'g'] ∨
        cand = base ++ ['e', 'r'] ∨
        cand = base ++ ['n', 'e', 's', 's'] ∨
        cand = base ++ ['s'] ∨
        cand = (base ++ [base.getLast hb]) ++ ['i', 'n', 'g'] ∨
        cand = (base ++ [base.getLast hb]) ++ ['e', 'r']) := by
  have hlen : 1 ≤ base.length := by
    cases base with
    | nil => exact absurd rfl hb
    | cons a l => simp
  simp only [is_simple_affix_variant, hlb, hlc]
  rw [if_neg (by push_neg; exact ⟨hb, hc⟩)]
  simp only [Bool.or_eq_true, Bool.and_eq_true, decide_eq_true_eq,
    suffixCheck_iff, drop_length_sub_one_eq_getLast base hb, prefix_drop_iff,
    hlen, Bool.false_eq_true, false_and, and_false, or_false, true_and, and_true]
  tauto

/-- C5 witness: "running" is a simple affix variant of "run" via the
doubled-final-consonant "ing" shape. -/
theorem is_simple_affix_variant_iff_witness :
    is_simple_affix_variant ['r', 'u', 'n'] ['r', 'u', 'n', 'n', 'i', 'n', 'g'] = true :=
  (is_simple_affix_variant_iff ['r', 'u', 'n'] ['r', 'u', 'n', 'n', 'i', 'n', 'g']
      (by decide) (by decide) (by decide) (by decide)).mpr
    (Or.inr (Or.inr (Or.inr (Or.inr (Or.inr (Or.inl (by decide)))))))

/-! ## The center-letter search (C2, C6, C7) -/

/-- The center loop returns nothing iff every center misses the
threshold. -/
theorem tryCenters_eq_none_iff (q : Query) (seed : Word) (minW : ℕ) (cs : List Word) :
    tryCenters q seed minW cs = none ↔ ∀ x ∈ cs, (q seed x).length < minW := by
  induction cs with
  | nil => simp [tryCenters]
  | cons c rest ih =>
    by_cases h : minW ≤ (q seed c).length
    · simp only [tryCenters, if_pos h]
      simp only [List.mem_cons]
      constructor
      · intro hfalse; exact absurd hfalse (by simp)
      · intro hall
        exact absurd h (not_le.mpr (hall c (Or.inl rfl)))
    · simp only [tryCenters, if_neg h, ih, List.mem_cons]
      constructor
      · intro hall x hx
        rcases hx with rfl | hx
        · exact not_le.mp h
        · exact hall x hx
      · intro hall x hx
        exact hall x (Or.inr hx)

/-- The center loop returns a pair iff that center is the first in order
reaching the threshold, paired with its query result. -/
theorem tryCenters_eq_some_iff (q : Query) (seed : Word) (minW : ℕ)
    (cs : List Word) (ctr : Word) (ws : List Word) :
    tryCenters q seed minW cs = some (ctr, ws) ↔
      ∃ l₁ l₂, cs = l₁ ++ ctr :: l₂ ∧ (∀ x ∈ l₁, (q seed x).length < minW) ∧
        minW ≤ (q seed ctr).length ∧ ws = q seed ctr := by
  induction cs with
  | nil =>
    simp only [tryCenters]
    constructor
    · intro hfalse; exact absurd hfalse (by simp)
    · rintro ⟨l₁, l₂, heq, -⟩
      cases l₁ <;> simp at heq
  | cons c rest ih =>
    by_cases h : minW ≤ (q seed c).length
    · simp only [tryCenters, if_pos h, Option.some_inj, Prod.mk.injEq]
      constructor
      · rintro ⟨rfl, rfl⟩
        exact ⟨[], rest, rfl, by simp, h, rfl⟩
      · rintro ⟨l₁, l₂, heq, hall, hge, rfl⟩
        cases l₁ with
        | nil =>
          simp only [List.nil_append, List.cons.injEq] at heq
          exact ⟨heq.1, by rw [heq.1]⟩
        | cons a l₁t =>
          simp only [List.cons_append, List.cons.injEq] at heq
          have := hall a (by simp)
          rw [← heq.1] at this
          exact absurd h (not_le.mpr this)
    · simp only [tryCenters, if_neg h, ih]
      constructor
      · rintro ⟨l₁, l₂, heq, hall, hge, rfl⟩
        refine ⟨c :: l₁, l₂, by simp [heq], ?_, hge, rfl⟩
        intro x hx
        rcases List.mem_cons.mp hx with rfl | hx
        · exact not_le.mp h
        · exact hall x hx
      · rintro ⟨l₁, l₂, heq, hall, hge, rfl⟩
        cases l₁ with
        | nil =>
          simp only [List.nil_append, List.cons.injEq] at heq
          rw [← heq.1] at hge
          exact absurd hge h
        | cons a l₁t =>
          simp only [List.cons_append, List.cons.injEq] at heq
          exact ⟨l₁t, l₂, heq.2, fun x hx => hall x (by simp [hx]), hge, rfl⟩

/-- `evaluate_candidate` succeeds with a given center and word list iff
the center loop does. -/
theorem evaluate_candidate_ok_iff_tryCenters (shuffle : List Word → List Word)
    (q : Query) (c : Candidate) (minW : ℕ) (h7 : (uniqueLetters c).length = 7)
    (ctr : Word) (ws : List Word) :
    evaluate_candidate shuffle q c minW = .ok (c, ctr, ws) ↔
      tryCenters q (seedOf c) minW (shuffle (uniqueLetters c)) = some (ctr, ws) := by
  simp only [evaluate_candidate]
  rw [if_pos h7]
  cases htc : tryCenters q (seedOf c) minW (shuffle (uniqueLetters c)) with
  | none => simp
  | some p => cases p with | mk a b => simp

/-- `evaluate_candidate` reports `thresholdUnsatisfied` iff the center
loop is exhausted. -/
theorem evaluate_candidate_threshold_iff_tryCenters (shuffle : List Word → List Word)
    (q : Query) (c : Candidate) (minW : ℕ) (h7 : (uniqueLetters c).length = 7) :
    evaluate_candidate shuffle q c minW = .error .thresholdUnsatisfied ↔
      tryCenters q (seedOf c) minW (shuffle (uniqueLetters c)) = none := by
  simp only [evaluate_candidate]
  rw [if_pos h7]
  cases htc : tryCenters q (seedOf c) minW (shuffle (uniqueLetters c)) with
  | none => simp
  | some p => cases p with | mk a b => simp

/-- C6: on a candidate with exactly 7 distinct letters, a success
returns the first center, in the tried order, whose query result
reaches the threshold, together with exactly that result; if no center
reaches it, the candidate fails with `thresholdUnsatisfied`. -/
theorem evaluate_candidate_first_satisfying_center (shuffle : List Word → List Word)
    (q : Query) (c : Candidate) (minW : ℕ) (h7 : (uniqueLetters c).length = 7) :
    (∀ ctr ws, evaluate_candidate shuffle q c minW = .ok (c, ctr, ws) ↔
      ∃ l₁ l₂, shuffle (uniqueLetters c) = l₁ ++ ctr :: l₂ ∧
        (∀ x ∈ l₁, (q (seedOf c) x).length < minW) ∧
        minW ≤ (q (seedOf c) ctr).length ∧ ws = q (seedOf c) ctr) ∧
    (evaluate_candidate shuffle q c minW = .error .thresholdUnsatisfied ↔
      ∀ x ∈ shuffle (uniqueLetters c), (q (seedOf c) x).length < minW) := by
  constructor
  · intro ctr ws
    exact (evaluate_candidate_ok_iff_tryCenters shuffle q c minW h7 ctr ws).trans
      (tryCenters_eq_some_iff q (seedOf c) minW (shuffle (uniqueLetters c)) ctr ws)
  · exact (evaluate_candidate_threshold_iff_tryCenters shuffle q c minW h7).trans
      (tryCenters_eq_none_iff q (seedOf c) minW (shuffle (uniqueLetters c)))

/-- C6 witness: with centers tried in order a–g and a query that only
rewards center "b" with two words, the candidate succeeds at center "b"
after "a" fails. -/
theorem evaluate_candidate_first_satisfying_center_witness :
    evaluate_candidate idShuffle centerBQuery candSeven 2 =
      .ok (candSeven, ['b'], [['b', 'a', 'd'], ['c', 'a', 'b']]) :=
  ((evaluate_candidate_first_satisfying_center idShuffle centerBQuery candSeven 2
      (by decide)).1 ['b'] [['b', 'a', 'd'], ['c', 'a', 'b']]).mpr
    ⟨[['a']], [['c'], ['d'], ['e'], ['f'], ['g']], by decide, by decide, by decide, by decide⟩

/-- C2 (amended): `evaluate_candidate` fails with `invalidLetterCount`,
independently of the query oracle and the center order (so without
trying any center), exactly when the candidate's supplied letters do
not normalize to 7 distinct entries — for a list input its lowercased,
stripped, non-empty elements, which the code does not require to be
single alphabetic characters. -/
theorem evaluate_candidate_letter_count (c : Candidate) (minW : ℕ) :
    ((uniqueLetters c).length ≠ 7 →
      ∀ shuffle q, evaluate_candidate shuffle q c minW = .error .invalidLetterCount) ∧
    ((uniqueLetters c).length = 7 →
      ∀ shuffle q, evaluate_candidate shuffle q c minW ≠ .error .invalidLetterCount) := by
  constructor
  · intro h shuffle q
    simp only [evaluate_candidate]
    rw [if_neg h]
  · intro h shuffle q
    simp only [evaluate_candidate]
    rw [if_pos h]
    cases htc : tryCenters q (seedOf c) minW (shuffle (uniqueLetters c)) with
    | none => simp
    | some p => cases p with | mk a b => simp

/-- C2 witness: a 3-letter candidate fails with `invalidLetterCount`,
and a 7-letter candidate never does. -/
theorem evaluate_candidate_letter_count_witness :
    evaluate_candidate idShuffle centerBQuery candThree 2 = .error .invalidLetterCount ∧
      evaluate_candidate idShuffle centerBQuery candSeven 2 ≠ .error .invalidLetterCount :=
  ⟨(evaluate_candidate_letter_count candThree 2).1 (by decide) idShuffle centerBQuery,
    (evaluate_candidate_letter_count candSeven 2).2 (by decide) idShuffle centerBQuery⟩

/-- C2 counterexample: the claim demands `invalidLetterCount` for every
candidate not reducing to 7 distinct *alphabetic* letters, but a list
of seven distinct digit strings passes the code's count check and the
evaluation proceeds to the center search. -/
theorem evaluate_candidate_alpha_counterexample :
    claimSevenAlphabetic candDigits = false ∧
      evaluate_candidate idShuffle constQuery candDigits 1 ≠ .error .invalidLetterCount := by
  constructor
  · decide
  · decide

/-- Success of `evaluate_candidate` is an existential over the
candidate's own letter set whenever the center order is a permutation
of it: some center must reach the threshold. -/
theorem evaluate_candidate_ok_exists_iff (shuffle : List Word → List Word)
    (q : Query) (c : Candidate) (minW : ℕ)
    (hs : (shuffle (uniqueLetters c)).Perm (uniqueLetters c)) :
    (∃ r, evaluate_candidate shuffle q c minW = .ok r) ↔
      ((uniqueLetters c).length = 7 ∧
        ∃ x ∈ uniqueLetters c, minW ≤ (q (seedOf c) x).length) := by
  by_cases h7 : (uniqueLetters c).length = 7
  · simp only [evaluate_candidate]
    rw [if_pos h7]
    cases htc : tryCenters q (seedOf c) minW (shuffle (uniqueLetters c)) with
    | none =>
      have hall := (tryCenters_eq_none_iff q (seedOf c) minW _).mp htc
      simp only [reduceCtorEq, exists_false, false_iff, not_and, not_exists, not_le]
      intro _ x hx
      exact hall x (hs.mem_iff.mpr hx)
    | some p =>
      cases p with
      | mk ctr ws =>
        rcases (tryCenters_eq_some_iff q (seedOf c) minW _ ctr ws).mp htc with
          ⟨l₁, l₂, heq, -, hge, -⟩
        have hmem : ctr ∈ uniqueLetters c := by
          apply hs.mem_iff.mp
          rw [heq]
          simp
        simp only [Except.ok.injEq]
        exact iff_of_true ⟨(c, ctr, ws), rfl⟩ ⟨h7, ctr, hmem, hge⟩
  · simp only [evaluate_candidate]
    rw [if_neg h7]
    simp only [reduceCtorEq, exists_false, false_iff, not_and]
    intro h
    exact absurd h h7

/-- The candidate loop succeeds iff some candidate in it evaluates
successfully. -/
theorem pickLoop_some_iff (st : List Word → List Word) (q : Query) (minW : ℕ)
    (cs : List Candidate) :
    (∃ r, pickLoop st q minW cs = some r) ↔
      ∃ c ∈ cs, ∃ r, evaluate_candidate st q c minW = .ok r := by
  induction cs with
  | nil => simp [pickLoop]
  | cons c rest ih =>
    simp only [pickLoop]
    cases heval : evaluate_candidate st q c minW with
    | ok r =>
      simp only [List.mem_cons]
      constructor
      · intro _
        exact ⟨c, Or.inl rfl, r, heval⟩
      · intro _
        exact ⟨r, rfl⟩
    | error e =>
      rw [ih]
      simp only [List.mem_cons]
      constructor
      · rintro ⟨c2, hmem, hr⟩
        exact ⟨c2, Or.inr hmem, hr⟩
      · rintro ⟨c2, hmem, hr⟩
        rcases hmem with rfl | hmem
        · rcases hr with ⟨r, hr⟩
          rw [heval] at hr
          exact absurd hr (by simp)
        · exact ⟨c2, hmem, hr⟩

/-- C7: whether `pick_candidate_and_center` finds a solution or fails
is invariant under how the candidate pool and the per-candidate center
order are shuffled: any two permutation-producing shuffles yield the
same success/failure outcome on the same pool, threshold and query. -/
theorem pick_candidate_outcome_shuffle_invariant (q : Query)
    (cands : List Candidate) (minW : ℕ)
    (s₁ s₂ : List Candidate → List Candidate) (t₁ t₂ : List Word → List Word)
    (hs₁ : ∀ l, (s₁ l).Perm l) (hs₂ : ∀ l, (s₂ l).Perm l)
    (ht₁ : ∀ l, (t₁ l).Perm l) (ht₂ : ∀ l, (t₂ l).Perm l) :
    (pick_candidate_and_center s₁ t₁ q cands minW).isSome =
      (pick_candidate_and_center s₂ t₂ q cands minW).isSome := by
  have key : ∀ (sc : List Candidate → List Candidate) (st : List Word → List Word),
      (∀ l, (sc l).Perm l) → (∀ l, (st l).Perm l) →
      ((pick_candidate_and_center sc st q cands minW).isSome = true ↔
        ∃ c ∈ cands, (uniqueLetters c).length = 7 ∧
          ∃ x ∈ uniqueLetters c, minW ≤ (q (seedOf c) x).length) := by
    intro sc st hsc hst
    rw [Option.isSome_iff_exists]
    unfold pick_candidate_and_center
    rw [pickLoop_some_iff]
    constructor
    · rintro ⟨c, hmem, hr⟩
      exact ⟨c, (hsc cands).mem_iff.mp hmem,
        (evaluate_candidate_ok_exists_iff st q c minW (hst _)).mp hr⟩
    · rintro ⟨c, hmem, hc⟩
      exact ⟨c, (hsc cands).mem_iff.mpr hmem,
        (evaluate_candidate_ok_exists_iff st q c minW (hst _)).mpr hc⟩
  rw [Bool.eq_iff_iff, key s₁ t₁ hs₁ ht₁, key s₂ t₂ hs₂ ht₂]

/-- C7 witness: on a concrete pool the identity and reversing shuffles
produce the same success outcome. -/
theorem pick_candidate_outcome_shuffle_invariant_witness :
    (pick_candidate_and_center idCandShuffle idShuffle centerBQuery examplePool 2).isSome =
      (pick_candidate_and_center revCandShuffle revShuffle centerBQuery examplePool 2).isSome :=
  pick_candidate_outcome_shuffle_invariant centerBQuery examplePool 2
    idCandShuffle revCandShuffle idShuffle revShuffle
    (fun l => List.Perm.refl l) (fun l => l.reverse_perm)
    (fun l => List.Perm.refl l) (fun l => l.reverse_perm)

/-! ## The dedup walk rule (C1) -/

/-- `find?` returns the head of the filtered list. -/
theorem find_eq_filter_head {α : Type} (p : α → Bool) (l : List α) :
    l.find? p = (l.filter p).head? := by
  induction l with
  | nil => rfl
  | cons a l ih =>
    cases h : p a with
    | true => rw [List.find?_cons_of_pos _ h, List.filter_cons_of_pos h, List.head?_cons]
    | false =>
      rw [List.find?_cons_of_neg _ (by simp [h]), List.filter_cons_of_neg (by simp [h]), ih]

/-- One walk step of the source equals the amended first-match rule:
the affix and own-frequency tests are decided against the first
qualifying kept entry only. -/
theorem dropStep_eq_first_match_rule (t : ℚ) (kept : List Entry) (e : Entry) :
    dropStep t kept e = if specDropFirst t kept e then kept else kept ++ [e] := by
  unfold dropStep specDropFirst
  rw [find_eq_filter_head]
  cases h : (kept.filter (qualB t e)).head? with
  | none => rfl
  | some k =>
    show (if is_simple_affix_variant k.word e.word then kept
        else if e.frequency ≤ t then kept else kept ++ [e]) =
      if (is_simple_affix_variant k.word e.word || decide (e.frequency ≤ t)) then kept
        else kept ++ [e]
    cases ha : is_simple_affix_variant k.word e.word with
    | true => rfl
    | false =>
      simp only [Bool.false_or, decide_eq_true_eq, Bool.false_eq_true, if_false]

/-- C1 (amended): the dedup walk drops the current entry iff the first
already-kept qualifying entry — strict substring, different word,
frequency at or above the threshold, earliest in kept order — makes the
current word an affix variant or the current frequency is at most the
threshold; the kept list of the source walk equals the walk driven by
this first-match rule. -/
theorem keptEntries_eq_first_match_rule (t : ℚ) (l : List Entry) :
    keptEntries t l = specKeptFirst t l := by
  unfold keptEntries specKeptFirst
  have h : dropStep t = fun kept e => if specDropFirst t kept e then kept else kept ++ [e] := by
    funext kept e
    exact dropStep_eq_first_match_rule t kept e
  rw [h]

/-- C1 counterexample: on the entries "est", "rest", "resting" (each
frequency 2, threshold 1) the claim's existential rule drops "resting"
(it is an affix variant of the qualifying kept word "rest"), but the
source walk tests only the first qualifying kept word "est" and keeps
"resting". -/
theorem dedup_existential_rule_counterexample :
    specDropEx 1 [entryEst, entryRest] entryResting = true ∧
      keptEntries 1 exListC1 = [entryEst, entryRest, entryResting] ∧
      specKeptEx 1 exListC1 = [entryEst, entryRest] := by
  refine ⟨by decide, by decide, by decide⟩

/-! ## Idempotence of the dedup filter (C4) -/

/-- Each walk step either drops the entry or appends it. -/
theorem dropStep_cases (t : ℚ) (k : List Entry) (e : Entry) :
    dropStep t k e = k ∨ dropStep t k e = k ++ [e] := by
  unfold dropStep
  split
  · exact Or.inr rfl
  · split
    · exact Or.inl rfl
    · split
      · exact Or.inl rfl
      · exact Or.inr rfl

/-- The kept accumulator only ever grows at the end. -/
theorem foldl_dropStep_grows (t : ℚ) :
    ∀ (ys : List Entry) (k : List Entry), k <+: ys.foldl (dropStep t) k := by
  intro ys
  induction ys with
  | nil => intro k; exact List.prefix_refl k
  | cons e ys ih =>
    intro k
    have h1 : k <+: dropStep t k e := by
      rcases dropStep_cases t k e with h | h
      · rw [h]
      · rw [h]; exact List.prefix_append k [e]
    rw [List.foldl_cons]
    exact h1.trans (ih (dropStep t k e))

/-- An entry present in the accumulator survives the rest of the walk. -/
theorem mem_foldl_dropStep (t : ℚ) (ys k : List Entry) (e : Entry) (he : e ∈ k) :
    e ∈ ys.foldl (dropStep t) k :=
  (foldl_dropStep_grows t ys k).sublist.subset he

/-- Inserting below every element of a list puts it in front. -/
theorem orderedInsert_of_forall_rel {α : Type} (r : α → α → Prop) [DecidableRel r]
    (a : α) (l : List α) (h : ∀ c ∈ l, r a c) :
    List.orderedInsert r a l = a :: l := by
  cases l with
  | nil => rfl
  | cons b l => simp [List.orderedInsert, if_pos (h b (List.mem_cons_self b l))]

/-- Filtering commutes with an ordered insert of a retained element
into a sorted list. -/
theorem filter_orderedInsert_pos {α : Type} (r : α → α → Prop) [DecidableRel r]
    [IsTrans α r] (p : α → Bool) (a : α) (s : List α)
    (hs : s.Pairwise r) (hp : p a = true) :
    (List.orderedInsert r a s).filter p = List.orderedInsert r a (s.filter p) := by
  induction s with
  | nil => simp [List.orderedInsert, hp]
  | cons b s ih =>
    have hbs : ∀ c ∈ s, r b c := (List.pairwise_cons.mp hs).1
    have hs2 : s.Pairwise r := (List.pairwise_cons.mp hs).2
    by_cases hr : r a b
    · rw [List.orderedInsert, if_pos hr]
      cases hb : p b with
      | true => simp [List.filter_cons, hp, hb, List.orderedInsert, hr]
      | false =>
        have hall : ∀ c ∈ s.filter p, r a c := by
          intro c hc
          exact IsTrans.trans a b c hr (hbs c (List.mem_of_mem_filter hc))
        rw [orderedInsert_of_forall_rel r a _ (by
          intro c hc
          rw [List.filter_cons, if_neg (by simp [hb])] at hc
          exact hall c hc)]
        simp [List.filter_cons, hp, hb]
    · rw [List.orderedInsert, if_neg hr]
      cases hb : p b with
      | true =>
        rw [List.filter_cons, if_pos hb, List.filter_cons, if_pos hb,
          List.orderedInsert, if_neg hr, ih hs2]
      | false =>
        rw [List.filter_cons, if_neg (by simp [hb]), List.filter_cons,
          if_neg (by simp [hb]), ih hs2]

/-- Filtering erases an ordered insert of a rejected element. -/
theorem filter_orderedInsert_neg {α : Type} (r : α → α → Prop) [DecidableRel r]
    (p : α → Bool) (a : α) (s : List α) (hp : p a = false) :
    (List.orderedInsert r a s).filter p = s.filter p := by
  induction s with
  | nil => simp [List.orderedInsert, hp]
  | cons b s ih =>
    by_cases hr : r a b
    · rw [List.orderedInsert, if_pos hr, List.filter_cons, if_neg (by simp [hp])]
    · rw [List.orderedInsert, if_neg hr, List.filter_cons, List.filter_cons]
      cases hb : p b with
      | true => simp [ih]
      | false => simp [ih]

/-- Stable sorting commutes with filtering. -/
theorem filter_insertionSort {α : Type} (r : α → α → Prop) [DecidableRel r]
    [IsTotal α r] [IsTrans α r] (p : α → Bool) (l : List α) :
    (List.insertionSort r l).filter p = List.insertionSort r (l.filter p) := by
  induction l with
  | nil => rfl
  | cons a l ih =>
    simp only [List.insertionSort, List.filter_cons]
    cases hp : p a with
    | true =>
      rw [filter_orderedInsert_pos r p a _ (List.sorted_insertionSort r l) hp, ih]
      simp [List.insertionSort]
    | false =>
      rw [filter_orderedInsert_neg r p a _ hp, ih]
      simp

/-- Removing from the walk input entries that the walk drops anyway
does not change the accumulated kept list. -/
theorem foldl_dropStep_filter (t : ℚ) (p : Entry → Bool) :
    ∀ (ys : List Entry) (k : List Entry),
      (∀ as e bs, ys = as ++ e :: bs → p e = false →
        dropStep t (as.foldl (dropStep t) k) e = as.foldl (dropStep t) k) →
      (ys.filter p).foldl (dropStep t) k = ys.foldl (dropStep t) k := by
  intro ys
  induction ys with
  | nil => intro k _; rfl
  | cons e ys ih =>
    intro k H
    cases hp : p e with
    | true =>
      rw [List.filter_cons, if_pos hp, List.foldl_cons, List.foldl_cons]
      apply ih (dropStep t k e)
      intro as e2 bs heq hpe2
      have h2 := H (e :: as) e2 bs (by simp [heq]) hpe2
      rw [List.foldl_cons] at h2
      exact h2
    | false =>
      have hd := H [] e ys rfl hp
      simp only [List.foldl_nil] at hd
      rw [List.filter_cons, if_neg (by simp [hp]), List.foldl_cons, hd]
      apply ih k
      intro as e2 bs heq hpe2
      have h2 := H (e :: as) e2 bs (by simp [heq]) hpe2
      rw [List.foldl_cons, hd] at h2
      exact h2

/-- Restricting the input to the kept word set reproduces the same kept
list: every removed entry was dropped by the walk at its own position. -/
theorem keptEntries_filter_kept (t : ℚ) (l : List Entry) :
    keptEntries t (l.filter fun e => decide (e.word ∈ keptWords t l)) =
      keptEntries t l := by
  unfold keptEntries
  have hsort : sortedByLen (l.filter fun e => decide (e.word ∈ keptWords t l)) =
      (sortedByLen l).filter fun e => decide (e.word ∈ keptWords t l) := by
    unfold sortedByLen
    exact (filter_insertionSort keyLe _ l).symm
  rw [hsort]
  apply foldl_dropStep_filter
  intro as e bs heq hpe
  rcases dropStep_cases t (as.foldl (dropStep t) []) e with h | h
  · exact h
  · exfalso
    have hmem : e ∈ keptEntries t l := by
      rw [keptEntries, heq, List.foldl_append, List.foldl_cons, h]
      exact mem_foldl_dropStep t bs _ e (by simp)
    have hpe2 : decide (e.word ∈ keptWords t l) = true := by
      apply decide_eq_true
      exact List.mem_map_of_mem (·.word) hmem
    rw [hpe2] at hpe
    cases hpe

/-- C4: the dedup filter is idempotent — refiltering its own output
with the same threshold drops nothing further. -/
theorem dedup_filter_idempotent (l : List Entry) (t : ℚ) :
    drop_superset_words (drop_superset_words l t) t = drop_superset_words l t := by
  rw [drop_superset_words_eq_filter l t,
    drop_superset_words_eq_filter (l.filter fun e => decide (e.word ∈ keptWords t l)) t]
  have hkept : keptWords t (l.filter fun e => decide (e.word ∈ keptWords t l)) =
      keptWords t l :=
    congrArg (List.map fun x : Entry => x.word) (keptEntries_filter_kept t l)
  simp only [hkept]
  apply List.filter_eq_self.mpr
  intro a ha
  exact (List.mem_filter.mp ha).2

/-! ## Subset query correctness (C9) -/

/-- Bitwise-and splits into the low bit and the shifted rest. -/
theorem and_decomp (x y : ℕ) : x &&& y = 2 * (x / 2 &&& y / 2) + (x % 2 &&& y % 2) := by
  apply Nat.eq_of_testBit_eq
  intro i
  cases i with
  | zero =>
    have hlt : (x % 2 &&& y % 2) < 2 :=
      lt_of_le_of_lt Nat.and_le_left (Nat.mod_lt x (by norm_num))
    have h2 : (2 * (x / 2 &&& y / 2) + (x % 2 &&& y % 2)) % 2 = x % 2 &&& y % 2 := by
      omega
    rw [Nat.testBit_and, Nat.testBit_zero, Nat.testBit_zero, Nat.testBit_zero, h2]
    rcases Nat.mod_two_eq_zero_or_one x with hx | hx <;>
      rcases Nat.mod_two_eq_zero_or_one y with hy | hy <;>
      rw [hx, hy] <;> decide
  | succ i =>
    have hlt : (x % 2 &&& y % 2) < 2 :=
      lt_of_le_of_lt Nat.and_le_left (Nat.mod_lt x (by norm_num))
    have hdiv : (2 * (x / 2 &&& y / 2) + (x % 2 &&& y % 2)) / 2 = x / 2 &&& y / 2 := by
      omega
    rw [Nat.testBit_and]
    simp only [Nat.testBit_succ]
    rw [hdiv, Nat.testBit_and]

/-- Decrementing an odd number only clears its lowest bit. -/
theorem and_sub_one_self_of_odd (sub : ℕ) (h : sub % 2 = 1) :
    (sub - 1) &&& sub = sub - 1 := by
  have h1 : (sub - 1) / 2 = sub / 2 := by omega
  have h2 : (sub - 1) % 2 = 0 := by omega
  rw [and_decomp, h1, h2, h, Nat.and_self, Nat.zero_and]
  omega

/-- The key submask-iteration step: `(sub-1) &&& m` is an upper bound
for every submask of `m` strictly below the submask `sub` — nothing is
skipped between consecutive enumerated submasks. -/
theorem le_and_sub_one (sub : ℕ) : sub ≠ 0 → ∀ m t : ℕ, sub &&& m = sub → t &&& m = t →
    t ≤ sub - 1 → t ≤ (sub - 1) &&& m := by
  induction sub using Nat.strong_induction_on with
  | _ sub ih =>
    intro hsub m t hsm htm hle
    rcases Nat.mod_two_eq_zero_or_one sub with hpar | hpar
    · have hs0 : sub / 2 ≠ 0 := by omega
      have hdecm : sub &&& m = 2 * (sub / 2 &&& m / 2) + (sub % 2 &&& m % 2) := and_decomp sub m
      rw [hpar, Nat.zero_and] at hdecm
      have hsm2 : sub / 2 &&& m / 2 = sub / 2 := by omega
      have hdect : t &&& m = 2 * (t / 2 &&& m / 2) + (t % 2 &&& m % 2) := and_decomp t m
      have htlt : (t % 2 &&& m % 2) ≤ t % 2 := Nat.and_le_left
      have htm2 : t / 2 &&& m / 2 = t / 2 ∧ (t % 2 &&& m % 2) = t % 2 := by omega
      have hle2 : t / 2 ≤ sub / 2 - 1 := by omega
      have hih := ih (sub / 2) (by omega) hs0 (m / 2) (t / 2) hsm2 htm2.1 hle2
      have hdec3 : (sub - 1) &&& m = 2 * ((sub - 1) / 2 &&& m / 2) + ((sub - 1) % 2 &&& m % 2) :=
        and_decomp (sub - 1) m
      have h4 : (sub - 1) / 2 = sub / 2 - 1 := by omega
      have h5 : (sub - 1) % 2 = 1 := by omega
      rw [h4, h5] at hdec3
      have h6 : t % 2 ≤ 1 &&& m % 2 := by
        rcases Nat.mod_two_eq_zero_or_one m with hm | hm
        · have hz : t % 2 &&& 0 = 0 := Nat.and_zero _
          rw [hm] at htm2 ⊢
          have hz2 : (1 : ℕ) &&& 0 = 0 := rfl
          omega
        · rw [hm]
          have h11 : (1 : ℕ) &&& 1 = 1 := rfl
          have : t % 2 < 2 := Nat.mod_lt t (by norm_num)
          omega
      rw [hdec3]
      omega
    · have hodd := and_sub_one_self_of_odd sub hpar
      have heq : (sub - 1) &&& m = sub - 1 := by
        calc (sub - 1) &&& m = ((sub - 1) &&& sub) &&& m := by rw [hodd]
          _ = (sub - 1) &&& (sub &&& m) := Nat.and_assoc _ _ _
          _ = (sub - 1) &&& sub := by rw [hsm]
          _ = sub - 1 := hodd
      rw [heq]
      exact hle

/-- The submask iteration started at a submask `sub` of `m` visits
exactly the non-zero submasks of `m` that are at most `sub`. -/
theorem mem_submaskList (m : ℕ) : ∀ sub, sub &&& m = sub →
    ∀ t, t ∈ submaskList m sub ↔ (t ≠ 0 ∧ t &&& m = t ∧ t ≤ sub) := by
  intro sub
  induction sub using Nat.strong_induction_on with
  | _ sub ih =>
    intro hsm t
    by_cases hz : sub = 0
    · subst hz
      have h0 : submaskList m 0 = [] := by rw [submaskList, dif_pos rfl]
      rw [h0]
      simp only [List.not_mem_nil, false_iff, not_and, not_le]
      intro h1 _
      omega
    · rw [submaskList, dif_neg hz]
      have hsub2 : ((sub - 1) &&& m) &&& m = (sub - 1) &&& m := by
        rw [Nat.and_assoc, Nat.and_self]
      have hlt : (sub - 1) &&& m < sub :=
        Nat.lt_of_le_of_lt Nat.and_le_left (by omega)
      rw [List.mem_cons, ih _ hlt hsub2 t]
      constructor
      · rintro (rfl | ⟨h1, h2, h3⟩)
        · exact ⟨hz, hsm, le_refl _⟩
        · exact ⟨h1, h2, le_trans h3 (le_trans Nat.and_le_left (by omega))⟩
      · rintro ⟨h1, h2, h3⟩
        rcases eq_or_lt_of_le h3 with rfl | h4
        · exact Or.inl rfl
        · exact Or.inr ⟨h1, h2, le_and_sub_one sub hz m t hsm h2 (by omega)⟩

/-- Every visited submask is at most the starting point. -/
theorem submaskList_le (m : ℕ) : ∀ sub, ∀ t ∈ submaskList m sub, t ≤ sub := by
  intro sub
  induction sub using Nat.strong_induction_on with
  | _ sub ih =>
    intro t ht
    by_cases hz : sub = 0
    · subst hz
      rw [submaskList, dif_pos rfl] at ht
      simp at ht
    · rw [submaskList, dif_neg hz] at ht
      rcases List.mem_cons.mp ht with rfl | ht
      · exact le_refl t
      · have hlt : (sub - 1) &&& m < sub :=
          Nat.lt_of_le_of_lt Nat.and_le_left (by omega)
        exact le_trans (ih _ hlt t ht) (le_of_lt hlt)

/-- The submask iteration is strictly decreasing. -/
theorem submaskList_pairwise (m : ℕ) :
    ∀ sub, (submaskList m sub).Pairwise (fun a b => b < a) := by
  intro sub
  induction sub using Nat.strong_induction_on with
  | _ sub ih =>
    by_cases hz : sub = 0
    · rw [submaskList, dif_pos hz]
      exact List.Pairwise.nil
    · rw [submaskList, dif_neg hz]
      have hlt : (sub - 1) &&& m < sub :=
        Nat.lt_of_le_of_lt Nat.and_le_left (by omega)
      refine List.Pairwise.cons ?_ (ih _ hlt)
      intro b hb
      exact Nat.lt_of_le_of_lt (submaskList_le m _ b hb) hlt

/-- Each subset is visited at most once. -/
theorem submaskList_nodup (m sub : ℕ) : (submaskList m sub).Nodup :=
  (submaskList_pairwise m sub).imp fun h => ne_of_gt h

/-- Membership in an index bucket. -/
theorem mem_buildIndex (words : List Word) (minLen : ℕ) (s : ℕ) (w : Word) :
    w ∈ buildIndex words minLen s ↔
      (w ∈ words ∧ minLen ≤ w.length ∧ maskOf w = s) := by
  simp [buildIndex, List.mem_filter, and_assoc]

/-- Appending disjoint nodup buckets over distinct masks yields no
duplicates. -/
theorem nodup_flatMap_buildIndex (words : List Word) (minLen : ℕ)
    (hnd : words.Nodup) :
    ∀ ms : List ℕ, ms.Nodup → (ms.flatMap (buildIndex words minLen)).Nodup := by
  intro ms
  induction ms with
  | nil => intro _; simp
  | cons s rest ih =>
    intro hms
    rw [List.flatMap_cons]
    have hd := List.nodup_cons.mp hms
    refine List.Nodup.append (hnd.filter _) (ih hd.2) ?_
    intro w hw1 hw2
    rcases (mem_buildIndex words minLen s w).mp hw1 with ⟨-, -, hmask1⟩
    rcases List.mem_flatMap.mp hw2 with ⟨s2, hs2, hw3⟩
    rcases (mem_buildIndex words minLen s2 w).mp hw3 with ⟨-, -, hmask2⟩
    have : s = s2 := by rw [← hmask1, ← hmask2]
    exact hd.1 (this ▸ hs2)

/-- C9: on an index built from a duplicate-free dictionary, the subset
query returns exactly the indexed words of sufficient length whose mask
is a subset of the puzzle mask and contains the center letter's bit —
no extra words, no missing words, and no duplicates. -/
theorem query_exactness (words : List Word) (minLen : ℕ) (pm ci : ℕ)
    (hnd : words.Nodup) :
    (query (buildIndex words minLen) pm ci).Nodup ∧
      ∀ w, w ∈ query (buildIndex words minLen) pm ci ↔
        (w ∈ words ∧ minLen ≤ w.length ∧ maskOf w &&& pm = maskOf w ∧
          (maskOf w).testBit ci = true) := by
  constructor
  · exact nodup_flatMap_buildIndex words minLen hnd _
      ((submaskList_nodup pm pm).filter _)
  · intro w
    unfold query
    rw [List.mem_flatMap]
    constructor
    · rintro ⟨s, hs, hw⟩
      rw [List.mem_filter] at hs
      rcases (mem_buildIndex words minLen s w).mp hw with ⟨hw1, hw2, hw3⟩
      rcases (mem_submaskList pm pm (Nat.and_self pm) s).mp hs.1 with ⟨-, h2, -⟩
      subst hw3
      exact ⟨hw1, hw2, h2, hs.2⟩
    · rintro ⟨hw1, hw2, hw3, hw4⟩
      refine ⟨maskOf w, ?_, (mem_buildIndex words minLen _ w).mpr ⟨hw1, hw2, rfl⟩⟩
      rw [List.mem_filter]
      have hnz : maskOf w ≠ 0 := by
        intro h0
        rw [h0, Nat.zero_testBit] at hw4
        cases hw4
      refine ⟨(mem_submaskList pm pm (Nat.and_self pm) _).mpr
        ⟨hnz, hw3, ?_⟩, hw4⟩
      calc maskOf w = maskOf w &&& pm := hw3.symm
        _ ≤ pm := Nat.and_le_right

/-- C9 witness: the query over a concrete four-word dictionary with
puzzle mask `abc` and center letter `b` has no duplicate output. -/
theorem query_exactness_witness :
    (query (buildIndex exDict 2) 7 1).Nodup :=
  (query_exactness exDict 2 7 1 (by decide)).1

end SpellingBee
